import Mathlib

/-!
Verification of the backtesting engine of the `qlib` repository
(`src/qlib/backtesting/engine.py` and `src/qlib/backtesting/portfolio.py`),
via a shallow embedding in Lean.

Modelling conventions:
* timestamps are natural numbers; a keyed series is a `List (ℕ × ℚ)` with
  strictly increasing keys where ordering matters;
* numeric values are rationals; a missing value (pandas `NaN`) is `none` in
  `Option ℚ`;
* pandas `sum`/row-sums skip missing cells (`skipna=True`), modelled by
  `Option.getD 0` on each cell before summing;
* `commission_bps` is kept in basis points exactly as in the source; the
  effective rate is `bps / 10000`.
-/

namespace Alpha

/-- Rational counterpart of `pandas.Series.clip(lo, hi)` for `lo ≤ hi`:
values below `lo` become `lo`, values above `hi` become `hi`. -/
def clip (lo hi x : ℚ) : ℚ := min hi (max lo x)

/-! ### Single-asset backtester, `src/qlib/backtesting/engine.py`

`Backtester.run(signal)` aligns signal and prices on shared timestamps
(inner join), raises when the intersection is empty, builds positions as
`signal.shift(1).clip(-max_position, max_position)`, multiplies by
`prices.pct_change()`, and subtracts `positions.diff().abs().fillna(0)`
times `commission_bps / 10000` when the commission is nonzero. -/

/-- Keys (index) of a keyed series. -/
def keysOf (s : List (ℕ × ℚ)) : List ℕ := s.map Prod.fst

/-- Value of a keyed series at key `k` (`0` when absent; used only at
keys known to be present). -/
def lookupD (s : List (ℕ × ℚ)) (k : ℕ) : ℚ :=
  ((s.find? (fun e => e.1 = k)).map Prod.snd).getD 0

/-- Shared timestamps of `signal.align(prices, join="inner")`: the signal
keys that also occur among the price keys (both series sorted, so this is
the sorted intersection). -/
def alignedKeys (signal prices : List (ℕ × ℚ)) : List ℕ :=
  (keysOf signal).filter (fun k => (keysOf prices).contains k)

/-- Row `i` of `signal.shift(1).clip(-m, m)` over the aligned value list
`s`: missing at the first aligned timestamp, otherwise the previous signal
value clamped to `[-m, m]`. -/
def positionAt (m : ℚ) (s : List ℚ) (i : ℕ) : Option ℚ :=
  if i = 0 then none else some (clip (-m) m (s.getD (i - 1) 0))

/-- Row `i` of `prices.pct_change()` over the aligned price list `p`:
missing at the first timestamp, otherwise `p i / p (i-1) - 1`. -/
def pctChangeAt (p : List ℚ) (i : ℕ) : Option ℚ :=
  if i = 0 then none else some (p.getD i 0 / p.getD (i - 1) 0 - 1)

/-- Row `i` of `positions * returns` (missing-value propagating product). -/
def rawPnlAt (m : ℚ) (s p : List ℚ) (i : ℕ) : Option ℚ :=
  (positionAt m s i).bind (fun pos => (pctChangeAt p i).map (fun r => pos * r))

/-- Row `i` of `f.diff()` for an optional-valued row function: missing at
row `0` and whenever either operand is missing. -/
def optDiffAt (f : ℕ → Option ℚ) (i : ℕ) : Option ℚ :=
  if i = 0 then none else
    (f i).bind (fun a => (f (i - 1)).map (fun b => a - b))

/-- Row `i` of `positions.diff().abs().fillna(0.0)`. -/
def turnoverAt (m : ℚ) (s : List ℚ) (i : ℕ) : ℚ :=
  ((optDiffAt (positionAt m s) i).map (fun d => |d|)).getD 0

/-- Row `i` of the net pnl: the raw pnl, minus `turnover * (bps / 10000)`
when `commission_bps` is nonzero (the source guards the subtraction with
`if self.commission_bps:`). -/
def netPnlAt (m bps : ℚ) (s p : List ℚ) (i : ℕ) : Option ℚ :=
  if bps = 0 then rawPnlAt m s p i
  else (rawPnlAt m s p i).map (fun x => x - turnoverAt m s i * (bps / 10000))

/-- The aligned-series body of `Backtester.run`: net pnl at every position
of the aligned timeline. -/
def runAligned (m bps : ℚ) (s p : List ℚ) : List (Option ℚ) :=
  (List.range p.length).map (netPnlAt m bps s p)

/-- `Backtester.run`: align on shared timestamps, fail when there are none,
otherwise return the keyed net-pnl series. -/
def Backtester.run (m bps : ℚ) (prices signal : List (ℕ × ℚ)) :
    Except String (List (ℕ × Option ℚ)) :=
  let ks := alignedKeys signal prices
  if ks.isEmpty then
    Except.error "signal and prices do not share any timestamps"
  else
    let sA := ks.map (lookupD signal)
    let pA := ks.map (lookupD prices)
    Except.ok (ks.zip (runAligned m bps sA pA))

/-! ### Multi-asset portfolio backtester, `src/qlib/backtesting/portfolio.py` -/

/-- A cleaned multi-asset price table: the distinct symbols (first level of
the column MultiIndex), the timeline length, and the `close` price of each
symbol at each timeline position. -/
structure PriceTable where
  symbols : List String
  n : ℕ
  close : String → ℕ → ℚ

/-- Row `i` of `close_prices.pct_change()` for symbol `s`. -/
def assetReturn (pt : PriceTable) (s : String) (i : ℕ) : Option ℚ :=
  if i = 0 then none else some (pt.close s i / pt.close s (i - 1) - 1)

/-- `PortfolioBacktester.__init__` on the parts visible to the weight
contract: the symbol list extracted from the price columns, the optional
weights dict (an association list), and the commission.  The source
validates the price input and the commission sign, then stores the weights
dict as given, defaulting to equal weight when absent; it performs no
comparison of the weight keys against the symbol set. -/
def PortfolioBacktester.init (symbols : List String)
    (weights : Option (List (String × ℚ))) (commissionBps : ℚ) :
    Except String (List (String × ℚ)) :=
  if symbols = [] then
    Except.error "prices must contain at least one observation"
  else if commissionBps < 0 then
    Except.error "commission_bps cannot be negative"
  else
    match weights with
    | none => Except.ok (symbols.map (fun s => (s, 1 / (symbols.length : ℚ))))
    | some w => Except.ok w

/-! #### Rebalance calendar and static weight matrix,
`PortfolioBacktester._build_rebalance_weights`

`index.to_series().resample(freq).first().dropna()` groups the timeline
into calendar periods and keeps the first timestamp observed in each
nonempty period.  We model the frequency as a period-assignment function
`per` on timestamps (timestamps in the same calendar period share a `per`
value), and the calendar as first-per-period deduplication. -/

/-- The rebalance calendar over a timeline: the first element of each
period, in timeline order (the model of `resample(freq).first().dropna()`).
-/
def rebalanceCalendar (per : ℕ → ℕ) : List ℕ → List ℕ
  | [] => []
  | t :: ts => t :: rebalanceCalendar per (ts.filter (fun u => per u ≠ per t))
termination_by l => l.length
decreasing_by
  simp only [List.length_cons]
  exact Nat.lt_succ_of_le (List.length_filter_le _ _)

/-- Timeline position `i` is a rebalance position when no earlier position
lies in the same period, i.e. `i` is the first observed timestamp of its
period. -/
def isRebalanceIdx (per : ℕ → ℕ) (i : ℕ) : Bool :=
  decide (∀ j < i, per j ≠ per i)

/-- Cell `(i, s)` of the weight matrix after the zero initialization and
the rebalance-row assignments `weight_matrix.loc[date] = target`. -/
def staticRowValue (per : ℕ → ℕ) (target : String → ℚ) (s : String)
    (i : ℕ) : ℚ :=
  if isRebalanceIdx per i then target s else 0

/-- `weight_matrix.replace(0.0, float("nan"))` on one cell. -/
def zeroToNan (x : ℚ) : Option ℚ := if x = 0 then none else some x

/-- Column-wise `ffill`: the last non-missing value at or before row `i`. -/
def ffill (f : ℕ → Option ℚ) : ℕ → Option ℚ
  | 0 => f 0
  | i + 1 => (f (i + 1)).orElse (fun _ => ffill f i)

/-- Cell `(i, s)` of the static-mode weight matrix: zeros, rebalance rows
set to the target, zeros replaced by the sentinel, forward fill, missing
filled with `0.0`. -/
def rebalanceWeight (per : ℕ → ℕ) (target : String → ℚ) (s : String)
    (i : ℕ) : ℚ :=
  (ffill (fun j => zeroToNan (staticRowValue per target s j)) i).getD 0

/-! #### Signal-override weight matrix and `PortfolioBacktester.run` -/

/-- Sum of absolute values of one signal row over the signal columns
(`signals.abs().sum(axis=1)`). -/
def rowSumAbs (cols : List String) (v : String → ℚ) : ℚ :=
  (cols.map (fun s => |v s|)).sum

/-- Cell `(i, s)` of
`signals.div(signals.abs().sum(axis=1), axis=0).fillna(0)`: when the row
sum of absolute values is `0` every cell of the row is `0`, so the
division produces `NaN` (`0/0`) and `fillna(0)` restores `0`; otherwise
the plain quotient.  The supplied signal table is modelled on the
simulation timeline itself, so the subsequent
`reindex(...).ffill().fillna(0)` is the identity. -/
def signalWeight (cols : List String) (v : String → ℕ → ℚ) (s : String)
    (i : ℕ) : ℚ :=
  if rowSumAbs cols (fun t => v t i) = 0 then 0
  else v s i / rowSumAbs cols (fun t => v t i)

/-- Row `i` of `weight_matrix.shift(1)` for symbol `s`: missing at the
first row, the previous weight afterwards. -/
def shiftPos (w : String → ℕ → ℚ) (s : String) (i : ℕ) : Option ℚ :=
  if i = 0 then none else some (w s (i - 1))

/-- Contribution of one cell of `positions * asset_returns` to the row sum
`(positions * asset_returns).sum(axis=1)`: the product when both factors
are present, and `0` when either is missing (pandas row sums skip `NaN`).
-/
def cellPnl (pos ret : Option ℚ) : ℚ :=
  ((pos.bind (fun p => ret.map (fun r => p * r)))).getD 0

/-- Row `i` of `(positions * asset_returns).sum(axis=1)` for a weight
matrix over the price-table symbols. -/
def portRawAt (pt : PriceTable) (w : String → ℕ → ℚ) (i : ℕ) : ℚ :=
  (pt.symbols.map (fun s => cellPnl (shiftPos w s i) (assetReturn pt s i))).sum

/-- Row `i` of `positions.diff().abs().sum(axis=1).fillna(0.0)`. -/
def portTurnoverAt (pt : PriceTable) (w : String → ℕ → ℚ) (i : ℕ) : ℚ :=
  (pt.symbols.map
    (fun s => ((optDiffAt (shiftPos w s) i).map (fun d => |d|)).getD 0)).sum

/-- Row `i` of the net portfolio return: the raw row sum, minus
`turnover * (bps / 10000)` when the commission is nonzero. -/
def portNetAt (pt : PriceTable) (w : String → ℕ → ℚ) (bps : ℚ)
    (i : ℕ) : ℚ :=
  if bps = 0 then portRawAt pt w i
  else portRawAt pt w i - portTurnoverAt pt w i * (bps / 10000)

/-! #### Signal mode with mismatched columns

`positions * asset_returns` aligns the two column sets: the product table
has the union of the columns, with an all-`NaN` column for every symbol
present on only one side, and the row sum skips those cells. -/

/-- Column union as pandas produces it for the product table (the order is
irrelevant to the row sums). -/
def unionCols (cols syms : List String) : List String :=
  cols ++ syms.filter (fun s => ¬ (s ∈ cols))

/-- Contribution of column `s` to row `i` of
`(positions * asset_returns).sum(axis=1)` in signal mode: the usual cell
product when `s` is both a signal column and a price symbol, and `0`
otherwise (the alignment fills such cells with `NaN`, which the row sum
skips). -/
def signalCellPnl (pt : PriceTable) (cols : List String)
    (v : String → ℕ → ℚ) (s : String) (i : ℕ) : ℚ :=
  if s ∈ cols ∧ s ∈ pt.symbols then
    cellPnl (shiftPos (signalWeight cols v) s i) (assetReturn pt s i)
  else 0

/-- Row `i` of the signal-mode raw portfolio return with arbitrary signal
columns: the row sum over the aligned column union. -/
def portSignalRawAt (pt : PriceTable) (cols : List String)
    (v : String → ℕ → ℚ) (i : ℕ) : ℚ :=
  ((unionCols cols pt.symbols).map (fun s => signalCellPnl pt cols v s i)).sum

/-! #### Cumulative net returns (for cost monotonicity)

Cumulative return of a simulation, as the repository's own cost test
(`test_commission_application`) measures it: the sum of the defined
per-period net returns (`dropna().sum()`). -/

/-- Cumulative single-asset net return over the aligned series. -/
def singleCumNet (m bps : ℚ) (s p : List ℚ) : ℚ :=
  ((List.range p.length).map (fun i => (netPnlAt m bps s p i).getD 0)).sum

/-- Cumulative portfolio net return. -/
def portCumNet (pt : PriceTable) (w : String → ℕ → ℚ) (bps : ℚ) : ℚ :=
  ((List.range pt.n).map (portNetAt pt w bps)).sum

/-! ## Theorems -/

/-- With `lo ≤ hi`, `clip` is the three-way clamp. -/
lemma clip_eq_ite (lo hi x : ℚ) (h : lo ≤ hi) :
    clip lo hi x = if x < lo then lo else if hi < x then hi else x := by
  unfold clip
  rcases lt_or_le x lo with hx | hx
  · rw [max_eq_left hx.le, min_eq_right h, if_pos hx]
  · rw [max_eq_right hx, if_neg (not_lt.mpr hx)]
    rcases lt_or_le hi x with hy | hy
    · rw [min_eq_left hy.le, if_pos hy]
    · rw [min_eq_right hy, if_neg (not_lt.mpr hy)]

/-- With `lo ≤ hi`, the clamped value lies in `[lo, hi]`. -/
lemma clip_mem (lo hi x : ℚ) (h : lo ≤ hi) :
    lo ≤ clip lo hi x ∧ clip lo hi x ≤ hi := by
  unfold clip
  exact ⟨le_min h (le_max_left _ _), min_le_left _ _⟩

/-- C2.  Lag and clamping of single-asset positions
(`positions = signal_aligned.shift(1).clip(-max_position, max_position)`):
the first aligned timestamp has a missing position; at every later
timestamp `i` the position is the signal value at `i - 1` clamped to
`[-m, m]` (values below `-m` become `-m`, values above `m` become `m`,
values in between pass through); and every defined position lies within
`[-m, m]`, whatever the magnitude of the input signal. -/
theorem position_lag_and_clamp (m : ℚ) (s : List ℚ) (hm : 0 < m) :
    positionAt m s 0 = none
    ∧ (∀ i x, 1 ≤ i → x = s.getD (i - 1) 0 →
        positionAt m s i =
          some (if x < -m then -m else if m < x then m else x))
    ∧ (∀ i v, positionAt m s i = some v → -m ≤ v ∧ v ≤ m) := by
  have hlh : -m ≤ m := le_trans (by linarith) hm.le
  refine ⟨rfl, ?_, ?_⟩
  · intro i x hi hx
    have hi0 : i ≠ 0 := by omega
    rw [positionAt, if_neg hi0, hx, clip_eq_ite _ _ _ hlh]
  · intro i v hv
    rw [positionAt] at hv
    by_cases hi0 : i = 0
    · rw [if_pos hi0] at hv; exact absurd hv (by simp)
    · rw [if_neg hi0] at hv
      have := clip_mem (-m) m (s.getD (i - 1) 0) hlh
      have hv2 : clip (-m) m (s.getD (i - 1) 0) = v := by
        exact Option.some_injective _ hv
      rw [hv2] at this
      exact this

/-- Witness for C2 at `m = 2`, signal `[5, -5, 1]`: the hypothesis
`0 < 2` holds, the position at row `2` is the clamped `-2`, and the bound
holds there. -/
theorem position_lag_and_clamp_witness :
    (0 : ℚ) < 2
    ∧ positionAt 2 [5, -5, 1] 2 = some (-2)
    ∧ (-2 : ℚ) ≤ -2 ∧ (-2 : ℚ) ≤ 2 := by
  have h := position_lag_and_clamp 2 [5, -5, 1] (by norm_num)
  have h2 := h.2.1 2 (-5) (by norm_num) (by norm_num)
  norm_num at h2
  exact ⟨by norm_num, h2, le_refl _, by norm_num⟩

/-- C7.  Alignment of `Backtester.run`: the aligned timestamps are exactly
the timestamps shared by signal and prices (inner join), and when the two
timelines are disjoint `run` fails with the value error naming the lack of
shared timestamps, producing no result. -/
theorem run_alignment_inner_join (signal prices : List (ℕ × ℚ))
    (m bps : ℚ) :
    (∀ k, k ∈ alignedKeys signal prices ↔
      k ∈ keysOf signal ∧ k ∈ keysOf prices)
    ∧ ((∀ k ∈ keysOf signal, k ∉ keysOf prices) →
        Backtester.run m bps prices signal =
          Except.error "signal and prices do not share any timestamps") := by
  constructor
  · intro k
    simp [alignedKeys, List.mem_filter]
  · intro hdisj
    have hempty : alignedKeys signal prices = [] := by
      rw [alignedKeys, List.filter_eq_nil_iff]
      intro k hk
      simpa using hdisj k hk
    rw [Backtester.run]
    simp [hempty]

/-- Witness for C7: signal keyed at `5`, prices keyed at `0` share no
timestamp, and `run` returns the value error. -/
theorem run_alignment_inner_join_witness :
    (∀ k ∈ keysOf [((5 : ℕ), (1 : ℚ))], k ∉ keysOf [((0 : ℕ), (100 : ℚ))])
    ∧ Backtester.run 1 0 [((0 : ℕ), (100 : ℚ))] [((5 : ℕ), (1 : ℚ))] =
        Except.error "signal and prices do not share any timestamps" :=
  ⟨by decide, (run_alignment_inner_join [(5, 1)] [(0, 100)] 1 0).2 (by decide)⟩

/-- C4.  The worked example of §8: prices `[100,101,102,99,100]`, signal
`[0,0.5,1,-0.5,0]` on the same five timestamps, `max_position = 1` and
`commission_bps = 10` (a rate of `0.001`).  The output equals, at each
timestamp, the one-period-lagged signal clipped to `[-1,1]` times the
simple percentage price change, minus `|Δposition| * 0.001`; the first
timestamp is missing (no prior signal, no prior price) and its period
treats the turnover of the first defined position as `0`. -/
theorem run_worked_example :
    Backtester.run 1 10
        [(0, 100), (1, 101), (2, 102), (3, 99), (4, 100)]
        [(0, 0), (1, 1/2), (2, 1), (3, -1/2), (4, 0)] =
      Except.ok
        [(0, none),
         (1, some (0 * (101/100 - 1) - 0 * (1/1000))),
         (2, some ((1/2) * (102/101 - 1) - |(1/2 : ℚ) - 0| * (1/1000))),
         (3, some (1 * (99/102 - 1) - |(1 : ℚ) - 1/2| * (1/1000))),
         (4, some ((-1/2) * (100/99 - 1) - |(-1/2 : ℚ) - 1| * (1/1000)))] := by
  norm_num [Backtester.run, alignedKeys, keysOf, lookupD, runAligned,
    netPnlAt, rawPnlAt, positionAt, pctChangeAt, turnoverAt, optDiffAt, clip,
    List.range_succ, abs_of_nonneg, abs_of_nonpos, List.find?, List.filter]

/-- Forward fill of an everywhere-missing column is missing. -/
lemma ffill_eq_none (f : ℕ → Option ℚ) (i : ℕ)
    (h : ∀ j ≤ i, f j = none) : ffill f i = none := by
  induction i with
  | zero => exact h 0 (le_refl 0)
  | succ k ih =>
    rw [ffill, h (k + 1) (le_refl _)]
    simpa [Option.orElse] using ih (fun j hj => h j (le_trans hj (Nat.le_succ k)))

/-- Forward fill keeps a present cell unchanged. -/
lemma ffill_eq_of_some (f : ℕ → Option ℚ) (i : ℕ) (v : ℚ)
    (h : f i = some v) : ffill f i = some v := by
  cases i with
  | zero => exact h
  | succ k => rw [ffill, h]; rfl

/-- Forward fill across a stretch of missing cells reaches back to the
last row before the stretch. -/
lemma ffill_eq_of_none_between (f : ℕ → Option ℚ) (r i : ℕ) (hri : r ≤ i)
    (h : ∀ j, r < j → j ≤ i → f j = none) : ffill f i = ffill f r := by
  induction i with
  | zero => rw [Nat.le_zero.mp hri]
  | succ k ih =>
    rcases Nat.eq_or_lt_of_le hri with he | hlt
    · rw [he]
    · have hrk : r ≤ k := Nat.lt_succ_iff.mp hlt
      rw [ffill, h (k + 1) hlt (le_refl _)]
      simpa [Option.orElse] using
        ih hrk (fun j hj1 hj2 => h j hj1 (le_trans hj2 (Nat.le_succ _)))

/-- C1.  Static target mode of the weight matrix builder
(`_build_rebalance_weights`): the first timeline position is always a
rebalance position (`resample(...).first()` keeps the first timestamp of
the first period), so no timestamp lies strictly before the first
rebalance date and every such timestamp trivially has weight `0`; at every
rebalance position the row equals the target weights exactly — also for a
symbol whose target weight is `0`, because in static mode the constant
target leaves such a column entirely missing after the zero/NaN
substitution, and the final `fillna(0.0)` restores the `0`; and between a
rebalance position and the next one the weights are carried forward
unchanged. -/
theorem static_weight_matrix (per : ℕ → ℕ) (target : String → ℚ)
    (s : String) :
    isRebalanceIdx per 0 = true
    ∧ (∀ i, isRebalanceIdx per i = true →
        rebalanceWeight per target s i = target s)
    ∧ (∀ r i, r ≤ i → isRebalanceIdx per r = true →
        (∀ j, j ≤ i → r < j → isRebalanceIdx per j = false) →
        rebalanceWeight per target s i = rebalanceWeight per target s r) := by
  refine ⟨by simp [isRebalanceIdx], ?_, ?_⟩
  · intro i hi
    by_cases h0 : target s = 0
    · rw [rebalanceWeight, ffill_eq_none, Option.getD_none, h0]
      intro j _
      rw [zeroToNan, staticRowValue]
      by_cases hj : isRebalanceIdx per j <;> simp [hj, h0]
    · rw [rebalanceWeight, ffill_eq_of_some _ _ (target s), Option.getD_some]
      rw [zeroToNan, staticRowValue, if_pos hi, if_neg h0]
  · intro r i hri hr hnone
    by_cases h0 : target s = 0
    · have hall : ∀ j, zeroToNan (staticRowValue per target s j) = none := by
        intro j
        rw [zeroToNan, staticRowValue]
        by_cases hj : isRebalanceIdx per j <;> simp [hj, h0]
      rw [rebalanceWeight, rebalanceWeight,
        ffill_eq_none _ _ (fun j _ => hall j), ffill_eq_none _ _ (fun j _ => hall j)]
    · rw [rebalanceWeight, rebalanceWeight, ffill_eq_of_none_between _ r i hri]
      intro j hj1 hj2
      have hz : staticRowValue per target s j = 0 := by
        rw [staticRowValue]
        simp [hnone j hj2 hj1]
      rw [zeroToNan, hz, if_pos rfl]

/-- Witness for C1: periods of three timeline positions
(`per i = i / 3`), target `1/2` on symbol `A` and `0` on every other
symbol, checked on the zero-weight symbol `B`: position `0` and `3` are
rebalance positions, the row at `3` equals the target (`0` for `B`), and
positions `4` and `5` carry the rebalance row forward unchanged. -/
theorem static_weight_matrix_witness :
    isRebalanceIdx (fun i => i / 3) 0 = true
    ∧ rebalanceWeight (fun i => i / 3)
        (fun t => if t = "A" then 1/2 else 0) "B" 3 =
        (if ("B" : String) = "A" then 1/2 else 0)
    ∧ rebalanceWeight (fun i => i / 3)
        (fun t => if t = "A" then 1/2 else 0) "B" 5 =
        rebalanceWeight (fun i => i / 3)
          (fun t => if t = "A" then 1/2 else 0) "B" 3 := by
  have h := static_weight_matrix (fun i => i / 3)
    (fun t => if t = "A" then 1/2 else 0) "B"
  exact ⟨h.1, h.2.1 3 (by decide), h.2.2 3 5 (by decide) (by decide) (by decide)⟩

/-- C3 (divergence).  `PortfolioBacktester.__init__` accepts a weights
dict whose key set does not equal the symbol set: with symbols
`SPY, BND, GLD` and weights given only for `SPY` and `BND`, construction
succeeds and stores the incomplete dict as-is, raising no value error —
even though the repository's own tests
(`test_raises_on_incomplete_weights`, `test_raises_on_extra_weights`)
require a value error naming the missing or extra symbols. -/
theorem init_accepts_mismatched_weights :
    PortfolioBacktester.init ["SPY", "BND", "GLD"]
        (some [("SPY", 6/10), ("BND", 4/10)]) 0 =
      Except.ok [("SPY", 6/10), ("BND", 4/10)] := rfl

/-- Sum over a list of a function that vanishes outside a decidable
predicate equals the sum over the filtered list. -/
lemma sum_ite_eq_sum_filter (l : List String) (P : String → Prop)
    [DecidablePred P] (f : String → ℚ) :
    (l.map (fun s => if P s then f s else 0)).sum =
      ((l.filter (fun s => P s)).map f).sum := by
  induction l with
  | nil => rfl
  | cons a t ih => by_cases h : P a <;> simp [h, ih]

/-- C5.  Signal-override normalization
(`signals.div(signals.abs().sum(axis=1), axis=0).fillna(0)`): a row with
at least one nonzero signal value normalizes to absolute weights summing
to `1`, and an all-zero row yields the all-zero weight row — the `0/0`
cells become `NaN` and `fillna(0)` restores `0`, so no division failure
occurs. -/
theorem signal_row_normalization (cols : List String)
    (v : String → ℕ → ℚ) (i : ℕ) :
    ((∃ s ∈ cols, v s i ≠ 0) →
      (cols.map (fun s => |signalWeight cols v s i|)).sum = 1)
    ∧ ((∀ s ∈ cols, v s i = 0) → ∀ s, signalWeight cols v s i = 0) := by
  constructor
  · rintro ⟨s0, hs0, hne⟩
    have hSdef : rowSumAbs cols (fun t => v t i) =
        (cols.map (fun t => |v t i|)).sum := rfl
    have hnn : ∀ x ∈ cols.map (fun t => |v t i|), (0 : ℚ) ≤ x := by
      intro x hx
      simp only [List.mem_map] at hx
      obtain ⟨t, _, ht⟩ := hx
      rw [← ht]
      exact abs_nonneg _
    have hpos : 0 < rowSumAbs cols (fun t => v t i) := by
      rw [hSdef]
      exact lt_of_lt_of_le (abs_pos.mpr hne)
        (List.single_le_sum hnn _ (List.mem_map_of_mem _ hs0))
    have hS0 : rowSumAbs cols (fun t => v t i) ≠ 0 := ne_of_gt hpos
    have hmap : cols.map (fun s => |signalWeight cols v s i|) =
        cols.map (fun s => |v s i| * (rowSumAbs cols (fun t => v t i))⁻¹) := by
      refine List.map_congr_left (fun s _ => ?_)
      rw [signalWeight, if_neg hS0, div_eq_mul_inv, abs_mul,
        abs_inv, abs_of_pos hpos]
    rw [hmap, List.sum_map_mul_right, ← hSdef]
    exact mul_inv_cancel₀ hS0
  · intro hall s
    have hz : rowSumAbs cols (fun t => v t i) = 0 := by
      refine List.sum_eq_zero (fun x hx => ?_)
      simp at hx
      obtain ⟨t, ht, hxt⟩ := hx
      rw [← hxt, hall t ht, abs_zero]
    rw [signalWeight, if_pos hz]

/-- Witness for C5: columns `A, B` with row values `3` and `-1`
(a nonzero row) normalize to absolute weights summing to `1`, and the
identically-zero signal normalizes to the zero row. -/
theorem signal_row_normalization_witness :
    (∃ s ∈ (["A", "B"] : List String),
      (fun (s : String) (_ : ℕ) => if s = "A" then (3 : ℚ) else -1) s 0 ≠ 0)
    ∧ ((["A", "B"] : List String).map
        (fun s => |signalWeight ["A", "B"]
          (fun s _ => if s = "A" then (3 : ℚ) else -1) s 0|)).sum = 1
    ∧ signalWeight ["A", "B"] (fun _ _ => (0 : ℚ)) "A" 0 = 0 := by
  refine ⟨⟨"A", by simp, by norm_num⟩, ?_, ?_⟩
  · exact (signal_row_normalization ["A", "B"]
      (fun s _ => if s = "A" then (3 : ℚ) else -1) 0).1 ⟨"A", by simp, by norm_num⟩
  · exact (signal_row_normalization ["A", "B"] (fun _ _ => (0 : ℚ)) 0).2
      (fun _ _ => rfl) "A"

/-- C9.  The portfolio output at the first timestamp is exactly `0`, not
missing, although every position there is missing: the cross-symbol row
sum `(positions * asset_returns).sum(axis=1)` skips missing cells, so a
cell with a missing position or a missing return contributes `0`, an
all-missing first row sums to `0`, and the first-row turnover is likewise
`0`, leaving a net first-row return of exactly `0` for any commission. -/
theorem portfolio_first_row_zero (pt : PriceTable) (w : String → ℕ → ℚ)
    (bps : ℚ) :
    portNetAt pt w bps 0 = 0
    ∧ (∀ s, shiftPos w s 0 = none)
    ∧ (∀ pos ret : Option ℚ, pos = none ∨ ret = none → cellPnl pos ret = 0) := by
  have hcell : ∀ pos ret : Option ℚ, pos = none ∨ ret = none →
      cellPnl pos ret = 0 := by
    rintro pos ret (h | h) <;> subst h <;> rw [cellPnl]
    · rfl
    · cases pos <;> rfl
  have hraw : portRawAt pt w 0 = 0 := by
    refine List.sum_eq_zero (fun x hx => ?_)
    simp only [List.mem_map] at hx
    obtain ⟨s, _, hs⟩ := hx
    rw [← hs]
    exact hcell _ _ (Or.inl rfl)
  have hturn : portTurnoverAt pt w 0 = 0 := by
    refine List.sum_eq_zero (fun x hx => ?_)
    simp only [List.mem_map] at hx
    obtain ⟨s, _, hs⟩ := hx
    rw [← hs, optDiffAt, if_pos rfl]
    rfl
  refine ⟨?_, fun s => rfl, hcell⟩
  rw [portNetAt]
  by_cases hb : bps = 0
  · rw [if_pos hb, hraw]
  · rw [if_neg hb, hraw, hturn, zero_mul, sub_zero]

/-- Witness for C9: a concrete one-symbol table with the static
equal-weight matrix and a commission, plus the skipped-cell implication
at a concrete missing position. -/
theorem portfolio_first_row_zero_witness :
    portNetAt ⟨["SPY"], 3, fun _ i => 100 + i⟩ (fun _ _ => 1) 10 0 = 0
    ∧ cellPnl none (some 1) = 0 := by
  have h := portfolio_first_row_zero ⟨["SPY"], 3, fun _ i => (100 : ℚ) + i⟩
    (fun _ _ => 1) 10
  exact ⟨h.1, h.2.2 none (some 1) (Or.inl rfl)⟩

/-- C10.  Signal mode with mismatched columns raises no error (the source
performs no validation of the signal columns; `run` is total here): the
product table `positions * asset_returns` aligns the two column sets, a
symbol present on only one side yields an all-missing column whose cells
the row sum skips, so each such symbol contributes `0` to every period and
the portfolio return reduces to the sum over the shared columns. -/
theorem signal_mode_mismatched_columns (pt : PriceTable)
    (cols : List String) (v : String → ℕ → ℚ) (i : ℕ) :
    portSignalRawAt pt cols v i =
      ((cols.filter (fun s => s ∈ pt.symbols)).map
        (fun s => cellPnl (shiftPos (signalWeight cols v) s i)
          (assetReturn pt s i))).sum
    ∧ (∀ s, s ∉ cols ∨ s ∉ pt.symbols → signalCellPnl pt cols v s i = 0) := by
  have hzero : ∀ s, s ∉ cols ∨ s ∉ pt.symbols →
      signalCellPnl pt cols v s i = 0 := by
    intro s hs
    rw [signalCellPnl, if_neg]
    rintro ⟨h1, h2⟩
    rcases hs with h | h <;> exact h (by assumption)
  constructor
  · rw [portSignalRawAt, unionCols, List.map_append, List.sum_append]
    have h2 : ((pt.symbols.filter (fun s => ¬ (s ∈ cols))).map
        (fun s => signalCellPnl pt cols v s i)).sum = 0 := by
      refine List.sum_eq_zero (fun x hx => ?_)
      simp only [List.mem_map, List.mem_filter] at hx
      obtain ⟨s, ⟨_, hsc⟩, hs⟩ := hx
      rw [← hs]
      exact hzero s (Or.inl (by simpa using hsc))
    rw [h2, add_zero]
    have h1 : cols.map (fun s => signalCellPnl pt cols v s i) =
        cols.map (fun s => if s ∈ pt.symbols then
          cellPnl (shiftPos (signalWeight cols v) s i) (assetReturn pt s i)
          else 0) := by
      refine List.map_congr_left (fun s hs => ?_)
      rw [signalCellPnl]
      by_cases hmem : s ∈ pt.symbols
      · rw [if_pos ⟨hs, hmem⟩, if_pos hmem]
      · rw [if_neg (fun h => hmem h.2), if_neg hmem]
    rw [h1, sum_ite_eq_sum_filter]
  · exact hzero

/-- Witness for C10: symbols `SPY, GLD`, signal columns `SPY, QQQ`; the
mismatched symbols `GLD` (no signal column) and `QQQ` (no price symbol)
each contribute `0` at row `1`. -/
theorem signal_mode_mismatched_columns_witness :
    ("GLD" : String) ∉ (["SPY", "QQQ"] : List String)
    ∧ signalCellPnl ⟨["SPY", "GLD"], 2, fun _ i => 100 + i⟩ ["SPY", "QQQ"]
        (fun _ _ => 1) "GLD" 1 = 0
    ∧ signalCellPnl ⟨["SPY", "GLD"], 2, fun _ i => 100 + i⟩ ["SPY", "QQQ"]
        (fun _ _ => 1) "QQQ" 1 = 0 := by
  have h := signal_mode_mismatched_columns
    ⟨["SPY", "GLD"], 2, fun _ i => (100 : ℚ) + i⟩ ["SPY", "QQQ"]
    (fun _ _ => 1) 1
  exact ⟨by decide, h.2 "GLD" (Or.inl (by decide)), h.2 "QQQ" (Or.inr (by decide))⟩

/-- The rebalance calendar is a sublist of the timeline. -/
lemma rebalanceCalendar_sublist (per : ℕ → ℕ) (tl : List ℕ) :
    (rebalanceCalendar per tl).Sublist tl := by
  induction tl using rebalanceCalendar.induct per with
  | case1 => simp [rebalanceCalendar]
  | case2 t ts ih =>
    rw [rebalanceCalendar]
    exact (ih.trans (List.filter_sublist _)).cons₂ t

/-- Calendar entries lie in pairwise distinct periods. -/
lemma rebalanceCalendar_pairwise (per : ℕ → ℕ) (tl : List ℕ) :
    (rebalanceCalendar per tl).Pairwise (fun a b => per a ≠ per b) := by
  induction tl using rebalanceCalendar.induct per with
  | case1 => simp [rebalanceCalendar]
  | case2 t ts ih =>
    rw [rebalanceCalendar, List.pairwise_cons]
    refine ⟨fun u hu => ?_, ih⟩
    have humem := (rebalanceCalendar_sublist per _).subset hu
    have := (List.mem_filter.mp humem).2
    simp only [decide_eq_true_eq] at this
    exact Ne.symm this

/-- Every timeline element's period is met by some calendar entry. -/
lemma rebalanceCalendar_covers (per : ℕ → ℕ) (tl : List ℕ) :
    ∀ x ∈ tl, ∃ u ∈ rebalanceCalendar per tl, per u = per x := by
  induction tl using rebalanceCalendar.induct per with
  | case1 => simp
  | case2 t ts ih =>
    intro x hx
    rw [rebalanceCalendar]
    rcases List.mem_cons.mp hx with rfl | hx'
    · exact ⟨x, List.mem_cons_self _ _, rfl⟩
    · by_cases hp : per x = per t
      · exact ⟨t, List.mem_cons_self _ _, hp.symm⟩
      · have hxf : x ∈ ts.filter (fun u => per u ≠ per t) :=
          List.mem_filter.mpr ⟨hx', by simpa using hp⟩
        obtain ⟨u, hu, hpu⟩ := ih x hxf
        exact ⟨u, List.mem_cons_of_mem _ hu, hpu⟩

/-- On a strictly increasing timeline, each calendar entry precedes (or
is) every timeline element of its period: it is the first observed
timestamp of the period. -/
lemma rebalanceCalendar_min (per : ℕ → ℕ) :
    ∀ tl : List ℕ, tl.Sorted (· < ·) →
      ∀ x ∈ tl, ∀ u ∈ rebalanceCalendar per tl, per u = per x → u ≤ x := by
  intro tl
  induction tl using rebalanceCalendar.induct per with
  | case1 => simp
  | case2 t ts ih =>
    intro hsort x hx u hu hpu
    have hsort' := List.sorted_cons.mp hsort
    rw [rebalanceCalendar] at hu
    rcases List.mem_cons.mp hu with rfl | hu'
    · rcases List.mem_cons.mp hx with rfl | hx'
      · exact le_refl _
      · exact (hsort'.1 x hx').le
    · have huf := (rebalanceCalendar_sublist per _).subset hu'
      have hunt : per u ≠ per t := by
        have := (List.mem_filter.mp huf).2
        simpa using this
      rcases List.mem_cons.mp hx with rfl | hx'
      · exact absurd hpu hunt
      · have hxf : x ∈ ts.filter (fun v => per v ≠ per t) :=
          List.mem_filter.mpr ⟨hx', by simp [hpu ▸ hunt]⟩
        exact ih (hsort'.2.sublist (List.filter_sublist _)) x hxf u hu' hpu

/-- When all timeline elements lie in distinct periods (a frequency finer
than the timeline spacing), the calendar is the whole timeline. -/
lemma rebalanceCalendar_eq_self (per : ℕ → ℕ) :
    ∀ tl : List ℕ, tl.Pairwise (fun a b => per a ≠ per b) →
      rebalanceCalendar per tl = tl := by
  intro tl
  induction tl using rebalanceCalendar.induct per with
  | case1 => intro _; simp [rebalanceCalendar]
  | case2 t ts ih =>
    intro hp
    have hp' := List.pairwise_cons.mp hp
    have hfilter : ts.filter (fun u => per u ≠ per t) = ts := by
      rw [List.filter_eq_self]
      intro u hu
      simpa using Ne.symm (hp'.1 u hu)
    rw [hfilter] at ih
    rw [rebalanceCalendar, hfilter, ih hp'.2]

/-- C6.  The rebalance calendar (`resample(freq).first().dropna()`,
modelled by first-of-period deduplication along the timeline): every
calendar entry is a timeline timestamp (no synthetic dates); the calendar
is ascending whenever the timeline is; every nonempty period is covered by
a calendar entry, the entries lie in pairwise distinct periods (so the
covering entry is unique), and each entry is the first observed timestamp
of its period; and a frequency placing every timeline element in its own
period (e.g. daily frequency on daily data) yields the full timeline. -/
theorem rebalance_calendar_spec (per : ℕ → ℕ) (tl : List ℕ) :
    (∀ u ∈ rebalanceCalendar per tl, u ∈ tl)
    ∧ (tl.Sorted (· < ·) → (rebalanceCalendar per tl).Sorted (· < ·))
    ∧ (∀ x ∈ tl, ∃ u ∈ rebalanceCalendar per tl, per u = per x)
    ∧ (rebalanceCalendar per tl).Pairwise (fun a b => per a ≠ per b)
    ∧ (tl.Sorted (· < ·) →
        ∀ x ∈ tl, ∀ u ∈ rebalanceCalendar per tl, per u = per x → u ≤ x)
    ∧ (tl.Pairwise (fun a b => per a ≠ per b) →
        rebalanceCalendar per tl = tl) :=
  ⟨fun _ hu => (rebalanceCalendar_sublist per tl).subset hu,
   fun hs => hs.sublist (rebalanceCalendar_sublist per tl),
   rebalanceCalendar_covers per tl,
   rebalanceCalendar_pairwise per tl,
   fun hs => rebalanceCalendar_min per tl hs,
   rebalanceCalendar_eq_self per tl⟩

/-- Witness for C6 at a concrete timeline `[3, 5, 12, 20, 25]` with
ten-timestamp periods (`per t = t / 10`): the timeline is sorted, the
calendar is sorted, its entries are timeline members, and the
identity-period frequency returns the full timeline. -/
theorem rebalance_calendar_spec_witness :
    ([3, 5, 12, 20, 25] : List ℕ).Sorted (· < ·)
    ∧ (rebalanceCalendar (fun t => t / 10) [3, 5, 12, 20, 25]).Sorted (· < ·)
    ∧ (∀ u ∈ rebalanceCalendar (fun t => t / 10) [3, 5, 12, 20, 25],
        u ∈ ([3, 5, 12, 20, 25] : List ℕ))
    ∧ rebalanceCalendar (fun t => t) [3, 5, 12, 20, 25] = [3, 5, 12, 20, 25] := by
  have h := rebalance_calendar_spec (fun t => t / 10) [3, 5, 12, 20, 25]
  have h2 := rebalance_calendar_spec (fun t => t) [3, 5, 12, 20, 25]
  exact ⟨by decide, h.2.1 (by decide), h.1, h2.2.2.2.2.2 (by decide)⟩

/-- Single-asset turnover is nonnegative. -/
lemma turnoverAt_nonneg (m : ℚ) (s : List ℚ) (i : ℕ) :
    0 ≤ turnoverAt m s i := by
  rw [turnoverAt]
  cases optDiffAt (positionAt m s) i with
  | none => exact le_refl 0
  | some d => exact abs_nonneg d

/-- Raising the commission never raises a defined per-period net return
(missing periods count as `0` on both sides). -/
lemma netPnlAt_mono (m b1 b2 : ℚ) (s p : List ℚ) (i : ℕ)
    (h1 : 0 ≤ b1) (h12 : b1 ≤ b2) :
    (netPnlAt m b2 s p i).getD 0 ≤ (netPnlAt m b1 s p i).getD 0 := by
  have ht := turnoverAt_nonneg m s i
  rw [netPnlAt, netPnlAt]
  cases hraw : rawPnlAt m s p i with
  | none =>
    by_cases hb1 : b1 = 0 <;> by_cases hb2 : b2 = 0 <;> simp [hb1, hb2, hraw]
  | some x =>
    by_cases hb2 : b2 = 0
    · have hb1 : b1 = 0 := le_antisymm (h12.trans_eq hb2) h1
      simp [hb1, hb2, hraw]
    · by_cases hb1 : b1 = 0
      · have hb2pos : 0 < b2 := lt_of_le_of_ne (hb1 ▸ h12) (Ne.symm hb2)
        simp [hb1, hb2, hraw]
        nlinarith
      · have hb1pos : 0 < b1 := lt_of_le_of_ne h1 (Ne.symm hb1)
        simp [hb1, hb2, hraw]
        nlinarith

/-- Portfolio turnover is nonnegative. -/
lemma portTurnoverAt_nonneg (pt : PriceTable) (w : String → ℕ → ℚ)
    (i : ℕ) : 0 ≤ portTurnoverAt pt w i := by
  refine List.sum_nonneg (fun x hx => ?_)
  simp only [List.mem_map] at hx
  obtain ⟨sym, _, hs⟩ := hx
  rw [← hs]
  cases optDiffAt (shiftPos w sym) i with
  | none => exact le_refl 0
  | some d => exact abs_nonneg d

/-- Raising the commission never raises a per-period portfolio net
return. -/
lemma portNetAt_mono (pt : PriceTable) (w : String → ℕ → ℚ) (b1 b2 : ℚ)
    (i : ℕ) (h1 : 0 ≤ b1) (h12 : b1 ≤ b2) :
    portNetAt pt w b2 i ≤ portNetAt pt w b1 i := by
  have ht := portTurnoverAt_nonneg pt w i
  rw [portNetAt, portNetAt]
  by_cases hb2 : b2 = 0
  · have hb1 : b1 = 0 := le_antisymm (h12.trans_eq hb2) h1
    simp [hb1, hb2]
  · by_cases hb1 : b1 = 0
    · have hb2pos : 0 < b2 := lt_of_le_of_ne (hb1 ▸ h12) (Ne.symm hb2)
      rw [if_pos hb1, if_neg hb2]
      nlinarith
    · rw [if_neg hb1, if_neg hb2]
      have hb1pos : 0 < b1 := lt_of_le_of_ne h1 (Ne.symm hb1)
      nlinarith

/-- C8.  Cost monotonicity: for a fixed price input and a fixed signal
(respectively weight matrix), and commissions `0 ≤ b1 < b2` in basis
points (hence rates `b1/10000 < b2/10000`), the cumulative net return —
the sum of the defined per-period net returns, as the repository's own
cost test measures it — under the higher commission is at most the
cumulative net return under the lower one, in the single-asset and in the
portfolio simulator. -/
theorem cost_monotonicity (m b1 b2 : ℚ) (s p : List ℚ)
    (pt : PriceTable) (w : String → ℕ → ℚ)
    (h1 : 0 ≤ b1) (h2 : b1 < b2) :
    singleCumNet m b2 s p ≤ singleCumNet m b1 s p
    ∧ portCumNet pt w b2 ≤ portCumNet pt w b1 := by
  constructor
  · exact List.sum_le_sum (fun i _ => netPnlAt_mono m b1 b2 s p i h1 h2.le)
  · exact List.sum_le_sum (fun i _ => portNetAt_mono pt w b1 b2 i h1 h2.le)

/-- Witness for C8 at commissions `0 < 10` bps, prices `[100, 102]`,
signal `[0, 1]`, and a one-symbol table with constant weight `1`. -/
theorem cost_monotonicity_witness :
    (0 : ℚ) ≤ 0 ∧ (0 : ℚ) < 10
    ∧ singleCumNet 1 10 [0, 1] [100, 102] ≤ singleCumNet 1 0 [0, 1] [100, 102]
    ∧ portCumNet ⟨["SPY"], 3, fun _ i => 100 + i⟩ (fun _ _ => 1) 10 ≤
        portCumNet ⟨["SPY"], 3, fun _ i => 100 + i⟩ (fun _ _ => 1) 0 := by
  have h := cost_monotonicity 1 0 10 [0, 1] [100, 102]
    ⟨["SPY"], 3, fun _ i => (100 : ℚ) + i⟩ (fun _ _ => 1)
    (le_refl 0) (by norm_num)
  exact ⟨le_refl 0, by norm_num, h.1, h.2⟩

end Alpha
